import Mathlib

/-!
Verification of the option-string parsing core of virt-manager
(`virtinst/cli.py`, the "CLI complex parsing helpers" section): the
tokenizer `parse_optstr_tuples`, the dict builder `_parse_optstr_to_dict`
with `_consume_comma_arg`, the argument descriptors
`_VirtCLIArgumentStatic` / `_VirtCLIArgument`, the indexed sub-object
resolver built by `_make_find_inst_cb`, and the `VirtCLIParser`
orchestration (`add_arg`, `print_introspection`, `_optdict_to_param_list`,
`_check_leftover_opts`, `_parse`).

The per-option-family callback bodies (`cb`, `lookup_cb`) are declarative
configuration data supplied by each family, not part of the parsing core;
they are modelled as identifiers with an inert interpretation.  Target
objects (virtinst XML builder instances) are modelled as a flat property
store plus one repeating child collection, which is what the core code
navigates through `get_prop_path` / `set_prop_path` / `add_new`.
-/

set_option autoImplicit false

namespace VirtCli

/-- Values held by an instantiated CLI argument after conversion:
Python `None`, a string, or a boolean (after on/off normalization). -/
inductive Val where
  | none
  | str (s : String)
  | bool (b : Bool)
  deriving DecidableEq, Repr

/-- Identifiers for the per-family `cb=` callbacks.  Only the identity of
the clearxml callback matters to the parsing core; family callbacks are
configuration data outside the core. -/
inductive CbId where
  | clearxml
  | noset
  | other (n : Nat)
  deriving DecidableEq, Repr

/-- Identifiers for per-family `lookup_cb=` callbacks (configuration data;
their behaviour is irrelevant to the parsing core). -/
inductive LookupCbId where
  | other (n : Nat)
  deriving DecidableEq, Repr

/-- Identifiers for `find_inst_cb=` callbacks.  Every such callback in the
source is built by `VirtCLIParser._make_find_inst_cb(cliarg,
list_propname)`; `indexed cliarg` stands for that callback, with the
`list_propname` collection modelled as the instance's single repeating
child list. -/
inductive FindCbId where
  | indexed (cliarg : String)
  deriving DecidableEq, Repr

/-- Errors raised by the parsing core (Python `RuntimeError` /
`ValueError` / `fail(...)` sites). -/
inductive Err where
  | noClosingQuotation          -- shlex: unterminated quote
  | noEscapedCharacter          -- shlex: trailing escape character
  | noValueSet (key : String)   -- "Option '%s' had no value set."
  | convError (key : String)    -- "%(key)s must be 'yes' or 'no'"
  | dontKnowMatch (key : String)  -- "Don't know how to match ..."
  | unknownOption (keys : List String)  -- "Unknown %s options: %s"
  | typeError                   -- None + str concatenation in _consume_comma_arg
  deriving DecidableEq, Repr

/-- Errors raised while registering a descriptor
(`_VirtCLIArgumentStatic.__init__` programming-error checks). -/
inductive RegError where
  | propnameOrCb        -- "propname or cb must be specified."
  | lookupCbUnspecified -- "propname is None but lookup_cb is not specified."
  deriving DecidableEq, Repr

/-! ### Name patterns

`_VirtCLIArgumentStatic.match_name` matches the candidate name against
`"^%s$" % argname` with `re.match`.  The `cliname`/alias strings used in
the source's declarative tables are literal names, optionally containing
`[0-9]*` runs (numeric index wildcards) and literal dots (which, as regex
metacharacters, match any single character).  We interpret exactly that
regex subset. -/

/-- One segment of a compiled name pattern. -/
inductive PatSeg where
  | lit (c : Char)   -- a literal character
  | anyc             -- `.` : any single character
  | digits           -- `[0-9]*` : zero or more decimal digits
  deriving DecidableEq, Repr

/-- Compile a `cliname` / alias string into pattern segments
(the regex subset used by the source's descriptor tables). -/
def patParse : List Char → List PatSeg
  | '[' :: '0' :: '-' :: '9' :: ']' :: '*' :: rest => .digits :: patParse rest
  | '.' :: rest => .anyc :: patParse rest
  | c :: rest => .lit c :: patParse rest
  | [] => []

/-- Fuelled matcher for pattern segments against a character list
(backtracking on `[0-9]*`).  Fuel `ps.length + cs.length + 1` always
suffices: every step shrinks `ps.length + cs.length`. -/
def segsMatchF : Nat → List PatSeg → List Char → Bool
  | 0, _, _ => false
  | _ + 1, [], cs => cs.isEmpty
  | f + 1, .lit c :: ps, d :: cs => c = d && segsMatchF f ps cs
  | _ + 1, .lit _ :: _, [] => false
  | f + 1, .anyc :: ps, _ :: cs => segsMatchF f ps cs
  | _ + 1, .anyc :: _, [] => false
  | f + 1, .digits :: ps, cs =>
      segsMatchF f ps cs ||
        (match cs with
         | d :: cs2 => d.isDigit && segsMatchF f (.digits :: ps) cs2
         | [] => false)

/-- Full-anchor match of a compiled pattern against a string of characters
(`re.match("^%s$" % argname, cliname)`). -/
def segsMatch (ps : List PatSeg) (cs : List Char) : Bool :=
  segsMatchF (ps.length + cs.length + 1) ps cs

/-! ### Tokenizer: `parse_optstr_tuples`

The source delegates splitting to `shlex.shlex(optstr, posix=True)` with
`commenters = ""`, `whitespace = ","` and `whitespace_split = True`.  We
embed that shlex configuration directly: commas outside quotes delimit
tokens, `'...'` and `"..."` quote, `\` escapes the next character (inside
`"..."` it escapes only `"` and `\`, otherwise it is kept), consecutive
delimiters produce no empty token (a quoted empty string does), an
unterminated quote or trailing escape raises. -/

/-- Lexer states.  In this shlex configuration (posix,
`whitespace_split=True`, no commenters, no punctuation chars) the
transitions of shlex's `' '` (between tokens) and `'a'` (inside a word)
states coincide, so they are collapsed into `norm`. -/
inductive LexState where
  | norm       -- outside quotes
  | squote     -- inside '...'
  | dquote     -- inside "..."
  | escNorm    -- after \ outside quotes
  | escDquote  -- after \ inside "..."
  deriving DecidableEq, Repr

/-- Token emitted at a delimiter or at end of input: shlex emits
`self.token` when it is nonempty or the token was quoted. -/
def emitEnd (tok : List Char) (quoted : Bool) : List String :=
  if tok.isEmpty && !quoted then [] else [⟨tok⟩]

/-- The shlex `read_token` loop, specialized to the configuration used by
`parse_optstr_tuples`.  `tok` is the token accumulator, `quoted` the
per-token "saw a quote" flag. -/
def shlexLoop : LexState → List Char → Bool → List Char → Except Err (List String)
  | .norm, tok, quoted, [] => .ok (emitEnd tok quoted)
  | .squote, _, _, [] => .error .noClosingQuotation
  | .dquote, _, _, [] => .error .noClosingQuotation
  | .escNorm, _, _, [] => .error .noEscapedCharacter
  | .escDquote, _, _, [] => .error .noEscapedCharacter
  | .norm, tok, quoted, c :: cs =>
      if c = ',' then
        if tok.isEmpty && !quoted then shlexLoop .norm [] false cs
        else
          match shlexLoop .norm [] false cs with
          | .ok ts => .ok (⟨tok⟩ :: ts)
          | .error e => .error e
      else if c = '\'' then shlexLoop .squote tok quoted cs
      else if c = '"' then shlexLoop .dquote tok quoted cs
      else if c = '\\' then shlexLoop .escNorm tok quoted cs
      else shlexLoop .norm (tok ++ [c]) quoted cs
  | .squote, tok, _, c :: cs =>
      if c = '\'' then shlexLoop .norm tok true cs
      else shlexLoop .squote (tok ++ [c]) true cs
  | .dquote, tok, _, c :: cs =>
      if c = '"' then shlexLoop .norm tok true cs
      else if c = '\\' then shlexLoop .escDquote tok true cs
      else shlexLoop .dquote (tok ++ [c]) true cs
  | .escNorm, tok, quoted, c :: cs => shlexLoop .norm (tok ++ [c]) quoted cs
  | .escDquote, tok, _, c :: cs =>
      if c = '"' then shlexLoop .dquote (tok ++ [c]) true cs
      else if c = '\\' then shlexLoop .dquote (tok ++ [c]) true cs
      else shlexLoop .dquote (tok ++ ['\\', c]) true cs

/-- Count the commas a given input would consume as top-level delimiters
(commas read while the lexer is outside quotes and not escaped).  Mirrors
the state transitions of `shlexLoop`. -/
def topCommaCount : LexState → List Char → Nat
  | _, [] => 0
  | .norm, c :: cs =>
      if c = ',' then 1 + topCommaCount .norm cs
      else if c = '\'' then topCommaCount .squote cs
      else if c = '"' then topCommaCount .dquote cs
      else if c = '\\' then topCommaCount .escNorm cs
      else topCommaCount .norm cs
  | .squote, c :: cs =>
      if c = '\'' then topCommaCount .norm cs else topCommaCount .squote cs
  | .dquote, c :: cs =>
      if c = '"' then topCommaCount .norm cs
      else if c = '\\' then topCommaCount .escDquote cs
      else topCommaCount .dquote cs
  | .escNorm, _ :: cs => topCommaCount .norm cs
  | .escDquote, _ :: cs => topCommaCount .dquote cs

/-- Split a token on its first `=` (`opt.split("=", 1)`); `none` when the
token contains no `=` (the value is absent, not empty). -/
def splitEqList : List Char → List Char × Option (List Char)
  | [] => ([], Option.none)
  | c :: rest =>
      if c = '=' then ([], some rest)
      else
        let (a, b) := splitEqList rest
        (c :: a, b)

/-- The loop body of `parse_optstr_tuples`: skip empty tokens
(`if not opt: continue`), split the rest on the first `=`. -/
def tupleOfOpt (opt : String) : Option (String × Option String) :=
  if opt = "" then Option.none
  else
    let (n, v) := splitEqList opt.data
    some ((⟨n⟩ : String), v.map fun l => (⟨l⟩ : String))

/-- `parse_optstr_tuples(optstr)`: shlex-split on commas, drop empty
tokens, split each token on the first `=`. -/
def parse_optstr_tuples (optstr : String) : Except Err (List (String × Option String)) :=
  match shlexLoop .norm [] false optstr.data with
  | .error e => .error e
  | .ok opts => .ok (opts.filterMap tupleOfOpt)

/-! ### Boolean normalization: `_raw_on_off_convert` / `_on_off_convert` -/

/-- Python `str.lower()` (character-wise; the recognized tokens are all
ASCII, where `Char.toLower` agrees with Python). -/
def pyLower (s : String) : String := ⟨s.data.map Char.toLower⟩

/-- The accepted true tokens of `_raw_on_off_convert`. -/
def tvalues : List String := ["y", "yes", "1", "true", "t", "on"]

/-- The accepted false tokens of `_raw_on_off_convert`. -/
def fvalues : List String := ["n", "no", "0", "false", "f", "off"]

/-- `_raw_on_off_convert(s)`: lowercase, then test membership in the
true/false token lists; `none` when neither. -/
def raw_on_off_convert (s : String) : Option Bool :=
  let sl := pyLower s
  if sl ∈ tvalues then some true
  else if sl ∈ fvalues then some false
  else Option.none

/-- `_on_off_convert(key, val)`: `None` passes through; otherwise convert
or raise "must be 'yes' or 'no'". -/
def on_off_convert (key : String) (val : Option String) : Except Err (Option Bool) :=
  match val with
  | Option.none => .ok Option.none
  | some s =>
      match raw_on_off_convert s with
      | some b => .ok (some b)
      | Option.none => .error (.convError key)

/-! ### Argument descriptors: `_VirtCLIArgumentStatic` -/

/-- Python truthiness of an optional string: `None` and `""` are falsy
(`if not self.propname:`). -/
def strFalsy : Option String → Bool
  | Option.none => true
  | some s => s = ""

/-- The `lookup_cb` argument as passed to the constructor: the default
sentinel `-1` ("unspecified"), or an explicitly given value (possibly
`None`). -/
inductive LookupSpec where
  | unspecified
  | given (c : Option LookupCbId)
  deriving DecidableEq, Repr

/-- The `lookup_cb == -1` sentinel test. -/
def LookupSpec.isUnspecified : LookupSpec → Bool
  | .unspecified => true
  | .given _ => false

/-- Constructor arguments of `_VirtCLIArgumentStatic.__init__`. -/
structure VirtArgSpec where
  cliname : String
  propname : Option String
  cb : Option CbId := Option.none
  can_comma : Bool := false
  ignore_default : Bool := false
  aliases : List String := []
  is_onoff : Bool := false
  lookup_cb : LookupSpec := .unspecified
  find_inst_cb : Option FindCbId := Option.none
  deriving DecidableEq, Repr

/-- A registered descriptor (a `_VirtCLIArgumentStatic` after its
constructor checks ran; the `-1` sentinel has been replaced by `None`). -/
structure VirtArgStatic where
  cliname : String
  propname : Option String
  cb : Option CbId
  can_comma : Bool
  ignore_default : Bool
  aliases : List String
  is_onoff : Bool
  lookup_cb : Option LookupCbId
  find_inst_cb : Option FindCbId
  deriving DecidableEq, Repr

/-- `_VirtCLIArgumentStatic.__init__`: raises when neither `propname` nor
`cb` is given, and when `propname` is missing while `lookup_cb` was left
at its `-1` default; afterwards the sentinel becomes `None`. -/
def mkVirtArgStatic (s : VirtArgSpec) : Except RegError VirtArgStatic :=
  if strFalsy s.propname && s.cb.isNone then .error .propnameOrCb
  else if strFalsy s.propname && s.lookup_cb.isUnspecified then .error .lookupCbUnspecified
  else
    .ok
      { cliname := s.cliname, propname := s.propname, cb := s.cb,
        can_comma := s.can_comma, ignore_default := s.ignore_default,
        aliases := s.aliases, is_onoff := s.is_onoff,
        lookup_cb :=
          match s.lookup_cb with
          | .unspecified => Option.none
          | .given c => c,
        find_inst_cb := s.find_inst_cb }

/-- `_VirtCLIArgumentStatic.match_name(cliname)`: the candidate name is
matched against the descriptor's `cliname` and each alias, each used as an
anchored regex. -/
def matchName (va : VirtArgStatic) (cliname : String) : Bool :=
  (va.cliname :: va.aliases).any fun p => segsMatch (patParse p.data) cliname.data

/-! ### Registration: `VirtCLIParser.add_arg` -/

/-- The `clearxml` descriptor spliced in by the first `add_arg` call:
`_VirtCLIArgumentStatic("clearxml", None, cb=cls._clearxml_cb,
lookup_cb=None, is_onoff=True)`. -/
def clearxmlArg : VirtArgStatic :=
  { cliname := "clearxml", propname := Option.none, cb := some .clearxml,
    can_comma := false, ignore_default := false, aliases := [],
    is_onoff := true, lookup_cb := Option.none, find_inst_cb := Option.none }

/-- `VirtCLIParser.add_arg`: on the first registration the list is seeded
with the `clearxml` descriptor, then the new descriptor is constructed and
appended. -/
def addArg (virtargs : List VirtArgStatic) (spec : VirtArgSpec) :
    Except RegError (List VirtArgStatic) :=
  let base := if virtargs.isEmpty then [clearxmlArg] else virtargs
  match mkVirtArgStatic spec with
  | .ok va => .ok (base ++ [va])
  | .error e => .error e

/-- A family's `_virtargs` registry: the `add_arg` calls of its
`_init_class`, folded from the empty list. -/
def registryFromSpecs (specs : List VirtArgSpec) : Except RegError (List VirtArgStatic) :=
  specs.foldlM addArg []

/-! ### Instantiated arguments: `_VirtCLIArgument` -/

/-- A `_VirtCLIArgument`: static descriptor plus the actual `key=val`
pair, with `val` already converted. -/
structure VirtCLIArgument where
  virtarg : VirtArgStatic
  key : String
  val : Val
  deriving DecidableEq, Repr

/-- `_VirtCLIArgument.__init__`: a missing value is an error ("Option
'%s' had no value set."); an empty string becomes `None` (intentional
unset); on/off descriptors then normalize the value. -/
def mkVirtCLIArgument (virtarg : VirtArgStatic) (key : String) (val : Option String) :
    Except Err VirtCLIArgument :=
  match val with
  | Option.none => .error (.noValueSet key)
  | some s =>
      let v : Option String := if s = "" then Option.none else some s
      if virtarg.is_onoff then
        match on_off_convert key v with
        | .error e => .error e
        | .ok Option.none => .ok ⟨virtarg, key, .none⟩
        | .ok (some b) => .ok ⟨virtarg, key, .bool b⟩
      else
        match v with
        | Option.none => .ok ⟨virtarg, key, .none⟩
        | some s2 => .ok ⟨virtarg, key, .str s2⟩

/-! ### Target instances

A virtinst object as the parsing core sees it: a property store addressed
by `propname` path strings (unset properties read as `None`), plus one
repeating child collection (the `list_propname` list that
`_make_find_inst_cb` navigates, e.g. `cells` or `seclabels`), whose
entries are property stores themselves and are created empty by
`add_new()`. -/

/-- A target instance: flat properties plus one repeating child list. -/
structure Inst where
  props : List (String × Val)
  sub : List (List (String × Val))
  deriving DecidableEq, Repr

/-- `util.get_prop_path`: an unset property reads as `None`. -/
def getProp (ps : List (String × Val)) (name : String) : Val :=
  match ps.find? (fun kv => kv.1 = name) with
  | some kv => kv.2
  | Option.none => .none

/-- `util.set_prop_path`: overwrite in place or append. -/
def setProp (ps : List (String × Val)) (name : String) (v : Val) : List (String × Val) :=
  if ps.any (fun kv => kv.1 = name) then
    ps.map fun kv => if kv.1 = name then (name, v) else kv
  else ps ++ [(name, v)]

/-- Interpretation of `cb=` callbacks on the property store they are
handed.  `clearxml` models `inst.clear()` (for a true value); the
family-specific callbacks are configuration data whose bodies are outside
the parsing core, modelled as inert. -/
def runCb : CbId → List (String × Val) → Val → List (String × Val)
  | .clearxml, ps, v => if v = .bool true then [] else ps
  | .noset, ps, _ => ps
  | .other _, ps, _ => ps

/-- Interpretation of `lookup_cb=` callbacks (family configuration data,
outside the parsing core; no claim depends on their behaviour). -/
def runLookupCb : LookupCbId → List (String × Val) → Val → Bool
  | .other _, _, _ => true

/-- Decimal value of a digit run. -/
def digitsToNat (ds : List Char) : Nat :=
  ds.foldl (fun n c => n * 10 + (c.toNat - '0'.toNat)) 0

/-- `re.search(r"%s(\d+)" % cliarg, key)` for a literal `cliarg`: find the
leftmost position where `cliarg` is followed by at least one digit and
return the value of the maximal digit run there. -/
def searchNum (pat : List Char) : List Char → Option Nat
  | [] => Option.none
  | c :: cs =>
      if pat.isPrefixOf (c :: cs) then
        let ds := ((c :: cs).drop pat.length).takeWhile Char.isDigit
        if ds.isEmpty then searchNum pat cs else some (digitsToNat ds)
      else searchNum pat cs

/-- The `while len(...) < num + 1: ....add_new()` loop: append empty
child entries until the collection has at least `n` entries. -/
def growTo (l : List (List (String × Val))) (n : Nat) : List (List (String × Val)) :=
  l ++ List.replicate (n - l.length) []

/-- The callback built by `_make_find_inst_cb(cliarg, list_propname)`:
extract the index trailing `cliarg` in the argument key (0 when absent);
with `can_edit` grow the child list until the index exists; return the
possibly-grown list together with the resolved index (`none` models the
`IndexError` path, which in `can_edit` mode is unreachable because the
list was just grown past `num`). -/
def runFindInstCb (cliarg : String) (key : String) (can_edit : Bool)
    (sub : List (List (String × Val))) :
    List (List (String × Val)) × Option Nat :=
  let num := (searchNum cliarg.data key.data).getD 0
  let sub2 := if can_edit then growTo sub (num + 1) else sub
  if num < sub2.length then (sub2, some num) else (sub2, Option.none)

/-- `_VirtCLIArgument.parse_param`: skip `"default"` values for
`ignore_default` descriptors; resolve the target through `find_inst_cb`
when present (construct mode, `can_edit=True`); then run the callback or
assign at the property path.  (The source's `get_prop_path` existence
check is a programming-error assertion; properties here form a total
store.) -/
def parse_param (va : VirtArgStatic) (key : String) (v : Val) (inst : Inst) : Inst :=
  if v = .str "default" && va.ignore_default then inst
  else
    match va.find_inst_cb with
    | Option.none =>
        match va.cb with
        | some c => { inst with props := runCb c inst.props v }
        | Option.none => { inst with props := setProp inst.props (va.propname.getD "") v }
    | some (.indexed cliarg) =>
        match runFindInstCb cliarg key true inst.sub with
        | (sub2, some num) =>
            let child := sub2.getD num []
            let child2 :=
              match va.cb with
              | some c => runCb c child v
              | Option.none => setProp child (va.propname.getD "") v
            { inst with sub := sub2.set num child2 }
        | (_, Option.none) => inst

/-- `_VirtCLIArgument.lookup_param`: a descriptor with neither `propname`
nor `lookup_cb` raises "Don't know how to match ..."; otherwise resolve
through `find_inst_cb` (match mode, `can_edit=False`, a missing index is
"no match"), then use the lookup callback or compare the property value. -/
def lookup_param (va : VirtArgStatic) (key : String) (v : Val) (inst : Inst) :
    Except Err Bool :=
  if strFalsy va.propname && va.lookup_cb.isNone then .error (.dontKnowMatch key)
  else
    match va.find_inst_cb with
    | Option.none =>
        match va.lookup_cb with
        | some lc => .ok (runLookupCb lc inst.props v)
        | Option.none => .ok (getProp inst.props (va.propname.getD "") = v)
    | some (.indexed cliarg) =>
        match runFindInstCb cliarg key false inst.sub with
        | (_, Option.none) => .ok false
        | (sub2, some num) =>
            let child := sub2.getD num []
            match va.lookup_cb with
            | some lc => .ok (runLookupCb lc child v)
            | Option.none => .ok (getProp child (va.propname.getD "") = v)

/-! ### Dict builder: `_parse_optstr_to_dict` -/

/-- `_lookup_virtarg(cliname)`: first registered descriptor matching the
name. -/
def lookupVirtarg (virtargs : List VirtArgStatic) (cliname : String) : Option VirtArgStatic :=
  virtargs.find? fun va => matchName va cliname

/-- The text `_consume_comma_arg` re-appends for one absorbed tuple:
`"," + cliname`, plus `"=" + val` only when `val` is truthy (absent and
empty values both yield the bare `,name`). -/
def rejoinChunk (t : String × Option String) : String :=
  "," ++ t.1 ++
    (match t.2 with
     | some v => if v = "" then "" else "=" ++ v
     | Option.none => "")

/-- `_consume_comma_arg(commaopt)`: absorb tuples until one matches a
registered descriptor.  The current value is an `Option String`; Python
raises `TypeError` when it is `None` and a tuple must be absorbed
(`None + ","`). -/
def consumeCommaArg (virtargs : List VirtArgStatic) :
    Option String → List (String × Option String) →
    Except Err (Option String × List (String × Option String))
  | cur, [] => .ok (cur, [])
  | cur, (c, v) :: rest =>
      if (lookupVirtarg virtargs c).isSome then .ok (cur, (c, v) :: rest)
      else
        match cur with
        | Option.none => .error .typeError
        | some s => consumeCommaArg virtargs (some (s ++ rejoinChunk (c, v))) rest

/-- The `remove_first` splice: while leading tuples are bare words, turn
each into `(positional_name, word)` consuming one queued name per word. -/
def spliceRemoveFirst :
    List (String × Option String) → List String → List (String × Option String)
  | (c, Option.none) :: rest, r :: rs => (r, some c) :: spliceRemoveFirst rest rs
  | toks, _ => toks

/-- Ordered-dict insert: `optdict[cliname] = val` keeps the original
position of an existing key and overwrites its value, else appends. -/
def odInsert (od : List (String × Option String)) (k : String) (v : Option String) :
    List (String × Option String) :=
  if od.any (fun kv => kv.1 = k) then
    od.map fun kv => if kv.1 = k then (k, v) else kv
  else od ++ [(k, v)]

/-- The `while opttuples:` loop of `_parse_optstr_to_dict`.  Each
iteration pops at least one tuple (and `_consume_comma_arg` only drops
further tuples), so the initial tuple count bounds the iteration count;
it is passed as the structural `fuel` (the `fuel = 0` row with tuples
remaining is unreachable from `parse_optstr_to_dict`, see
`dictLoopF_fuel_irrelevant`). -/
def dictLoopF (virtargs : List VirtArgStatic) :
    Nat → List (String × Option String) → List (String × Option String) →
    Except Err (List (String × Option String))
  | _, [], od => .ok od
  | 0, _ :: _, od => .ok od
  | fuel + 1, (c, v) :: rest, od =>
      match lookupVirtarg virtargs c with
      | Option.none => dictLoopF virtargs fuel rest (odInsert od c v)
      | some va =>
          if va.can_comma then
            match consumeCommaArg virtargs v rest with
            | .ok (v2, rest2) => dictLoopF virtargs fuel rest2 (odInsert od c v2)
            | .error e => .error e
          else dictLoopF virtargs fuel rest (odInsert od c v)

/-- `_parse_optstr_to_dict(optstr, virtargs, remove_first)`. -/
def parse_optstr_to_dict (optstr : String) (virtargs : List VirtArgStatic)
    (removeFirst : List String) : Except Err (List (String × Option String)) :=
  match parse_optstr_tuples optstr with
  | .error e => .error e
  | .ok opttuples =>
      let opttuples := spliceRemoveFirst opttuples removeFirst
      dictLoopF virtargs opttuples.length opttuples []

/-! ### Binding: `_optdict_to_param_list`, `_check_leftover_opts`, `_parse` -/

/-- `_optdict_to_param_list`: walk descriptors in registry order; each
claims (pops) every still-present key it matches, in dict order.  Returns
the claim list and the leftover dict. -/
def optdictToParamList (virtargs : List VirtArgStatic)
    (od : List (String × Option String)) :
    List (VirtArgStatic × String × Option String) × List (String × Option String) :=
  virtargs.foldl
    (fun acc va =>
      let claimed := acc.2.filter fun kv => matchName va kv.1
      let rest := acc.2.filter fun kv => !matchName va kv.1
      (acc.1 ++ claimed.map fun kv => (va, kv.1, kv.2), rest))
    ([], od)

/-- Instantiate the claimed `(descriptor, key, value)` triples in order
(the `_VirtCLIArgument(...)` constructions inside
`_optdict_to_param_list`; the first failing construction aborts). -/
def instantiateParams (l : List (VirtArgStatic × String × Option String)) :
    Except Err (List VirtCLIArgument) :=
  l.mapM fun t => mkVirtCLIArgument t.1 t.2.1 t.2.2

/-- `_check_leftover_opts`: any keys remaining after all descriptors ran
fail as "Unknown ... options", naming every leftover key. -/
def checkLeftover (od : List (String × Option String)) : Except Err Unit :=
  if od.isEmpty then .ok () else .error (.unknownOption (od.map Prod.fst))

/-- `VirtCLIParser._parse` in construct mode: build the param list from a
copy of the optdict, run `parse_param` for each, then check leftovers. -/
def parseAll (virtargs : List VirtArgStatic) (od : List (String × Option String))
    (inst : Inst) : Except Err Inst :=
  let tl := optdictToParamList virtargs od
  match instantiateParams tl.1 with
  | .error e => .error e
  | .ok params =>
      let inst2 := params.foldl (fun i p => parse_param p.virtarg p.key p.val i) inst
      match checkLeftover tl.2 with
      | .error e => .error e
      | .ok _ => .ok inst2

/-! ### Introspection: `VirtCLIParser.print_introspection` -/

/-- Python `str.startswith`. -/
def strStartsWith (s pre : String) : Bool := pre.data.isPrefixOf s.data

/-- Python string comparison (code-point lexicographic) as used by
`sorted`. -/
def charListLe : List Char → List Char → Bool
  | [], _ => true
  | _ :: _, [] => false
  | a :: as, b :: bs => if a = b then charListLe as bs else decide (a < b)

/-- The `_sortkey` of `print_introspection`: prefix `"0"` for `clearxml`,
`"1"` for `address.`-prefixed names.  (The source computes the prefix
with two sequential `if`s, the second winning; the conditions are
mutually exclusive, so testing the `address.` one first is equivalent.) -/
def sortKey (va : VirtArgStatic) : String :=
  (if strStartsWith va.cliname "address." then "1"
   else if va.cliname = "clearxml" then "0" else "") ++ va.cliname

/-- Stable insertion into a sorted list (insert before the first
strictly-greater element), matching the stability of Python `sorted`. -/
def insOrdered (le : VirtArgStatic → VirtArgStatic → Bool) (a : VirtArgStatic) :
    List VirtArgStatic → List VirtArgStatic
  | [] => [a]
  | b :: l => if le a b then a :: b :: l else b :: insOrdered le a l

/-- Stable sort of the registry, as `sorted(cls._virtargs, key=_sortkey)`. -/
def insSort (le : VirtArgStatic → VirtArgStatic → Bool) :
    List VirtArgStatic → List VirtArgStatic
  | [] => []
  | a :: l => insOrdered le a (insSort le l)

/-- Comparison of descriptors by their `_sortkey`. -/
def leKey (a b : VirtArgStatic) : Bool := charListLe (sortKey a).data (sortKey b).data

/-- `print_introspection`: the option names printed, in order
(`sorted(cls._virtargs, key=_sortkey)`). -/
def introspect (virtargs : List VirtArgStatic) : List String :=
  (insSort leKey virtargs).map fun va => va.cliname

/-! ### Concrete descriptors and registries used by the theorems below.
These follow the shape of the source's declarative tables (configuration
data for the engine). -/

/-- An empty target instance. -/
def instEmpty : Inst := ⟨[], []⟩

/-- A plain property-mapped descriptor, like `add_arg("path", "path")`. -/
def pathSpec : VirtArgSpec := { cliname := "path", propname := some "path" }

/-- The registered form of `pathSpec`. -/
def pathArg : VirtArgStatic :=
  { cliname := "path", propname := some "path", cb := Option.none,
    can_comma := false, ignore_default := false, aliases := [],
    is_onoff := false, lookup_cb := Option.none, find_inst_cb := Option.none }

/-- An address sub-option descriptor, like
`add_arg("address.type", "address.type")`. -/
def addrArg : VirtArgStatic :=
  { cliname := "address.type", propname := some "address.type", cb := Option.none,
    can_comma := false, ignore_default := false, aliases := [],
    is_onoff := false, lookup_cb := Option.none, find_inst_cb := Option.none }

/-- A comma-continuation descriptor, like
`add_arg("label", "label", can_comma=True)`. -/
def labelArg : VirtArgStatic :=
  { cliname := "label", propname := some "label", cb := Option.none,
    can_comma := true, ignore_default := false, aliases := [],
    is_onoff := false, lookup_cb := Option.none, find_inst_cb := Option.none }

/-- A boolean-normalized descriptor, like
`add_arg("relabel", "relabel", is_onoff=True)`. -/
def relabelArg : VirtArgStatic :=
  { cliname := "relabel", propname := some "relabel", cb := Option.none,
    can_comma := false, ignore_default := false, aliases := [],
    is_onoff := true, lookup_cb := Option.none, find_inst_cb := Option.none }

/-- An indexed sub-object descriptor, like
`add_arg("cell[0-9]*.id", "id", find_inst_cb=self._make_find_inst_cb("cell", "cells"))`. -/
def cellArg : VirtArgStatic :=
  { cliname := "cell[0-9]*.id", propname := some "id", cb := Option.none,
    can_comma := false, ignore_default := false, aliases := [],
    is_onoff := false, lookup_cb := Option.none,
    find_inst_cb := some (.indexed "cell") }

/-- A registry with a comma-continuation descriptor. -/
def labelVas : List VirtArgStatic := [clearxmlArg, labelArg]

/-- A small demo registry: clearxml, an address option, a plain option. -/
def demoVas : List VirtArgStatic := [clearxmlArg, addrArg, pathArg]

/-- Two specs whose clinames collide, used for the ambiguity claim. -/
def fooSpecA : VirtArgSpec := { cliname := "foo", propname := some "a" }

/-- Second colliding spec. -/
def fooSpecB : VirtArgSpec := { cliname := "foo", propname := some "b" }

/-- The registered form of `fooSpecA`. -/
def fooArgA : VirtArgStatic :=
  { cliname := "foo", propname := some "a", cb := Option.none,
    can_comma := false, ignore_default := false, aliases := [],
    is_onoff := false, lookup_cb := Option.none, find_inst_cb := Option.none }

/-- The registered form of `fooSpecB`. -/
def fooArgB : VirtArgStatic :=
  { cliname := "foo", propname := some "b", cb := Option.none,
    can_comma := false, ignore_default := false, aliases := [],
    is_onoff := false, lookup_cb := Option.none, find_inst_cb := Option.none }

/-- A spec with no propname, a callback, and `lookup_cb` explicitly
`None`, like `add_arg("path_in_use", None, cb=cls.set_cb, lookup_cb=None)`. -/
def orphanSpec : VirtArgSpec :=
  { cliname := "boot", propname := Option.none, cb := some (.other 0),
    lookup_cb := .given Option.none }

/-- The registered form of `orphanSpec`: no propname, no lookup callback. -/
def orphanArg : VirtArgStatic :=
  { cliname := "boot", propname := Option.none, cb := some (.other 0),
    can_comma := false, ignore_default := false, aliases := [],
    is_onoff := false, lookup_cb := Option.none, find_inst_cb := Option.none }

/-! ### Definitions taken from the spec's words (for refutation), not from
the source. -/

/-- Modelled from the spec's claim wording: the comma-continuation rejoin
appends `,name=value` whenever the token carries a value (even an empty
one) and `,name` only when the value is absent.  Compare `rejoinChunk`,
which is the source's `if val:` behaviour. -/
def specRejoinChunk (t : String × Option String) : String :=
  "," ++ t.1 ++
    (match t.2 with
     | some v => "=" ++ v
     | Option.none => "")

/-- Modelled from the spec's claim wording: in an introspection listing,
every `address.`-prefixed name comes after all other names (no
`address.`-prefixed name is followed by a non-`address.` name). -/
def specAddressLast : List String → Bool
  | [] => true
  | n :: rest =>
      (!strStartsWith n "address." || rest.all fun m => strStartsWith m "address.") &&
        specAddressLast rest

/-! ### Auxiliary predicates used to state the theorems -/

/-- A character the lexer passes through unchanged in its `norm` state:
not a delimiter, quote, or escape. -/
def lexPlain (c : Char) : Bool := !(c = ',' || c = '\'' || c = '"' || c = '\\')

/-- No two adjacent commas. -/
def noAdjComma : List Char → Bool
  | a :: b :: rest => !(a = ',' && b = ',') && noAdjComma (b :: rest)
  | _ => true

/-- The last character is not a comma (vacuously true for the empty
list). -/
def noTrailComma : List Char → Bool
  | [] => true
  | [c] => !(c = ',')
  | _ :: rest => noTrailComma rest

/-- Nonempty with a non-comma first character. -/
def headNotCommaB : List Char → Bool
  | [] => false
  | c :: _ => !(c = ',')

/-- Option strings whose top-level comma-separated segments are all
nonempty and quote/escape-free: nonempty, not starting or ending with a
top-level comma, no adjacent commas, every character either plain or a
comma. -/
def goodSegments (cs : List Char) : Bool :=
  headNotCommaB cs && noTrailComma cs && noAdjComma cs &&
    cs.all fun c => lexPlain c || c = ','

/-- The introspection-ordering category of an option name: `clearxml`,
`address.`-prefixed, or other. -/
def introCat (n : String) : Nat :=
  if n = "clearxml" then 0 else if strStartsWith n "address." then 1 else 2

/-- An ordinary option name whose first character sorts after the `"0"` /
`"1"` prefixes of the introspection sort key (every name in the source's
tables starts with a lowercase letter). -/
def goodHead (n : String) : Bool :=
  match n.data with
  | c :: _ => decide ('1' < c)
  | [] => false

/-! ## Helper lemmas -/

theorem consumeCommaArg_length_le (vas : List VirtArgStatic) :
    ∀ (toks : List (String × Option String)) (cur : Option String)
      (v2 : Option String) (rest2 : List (String × Option String)),
    consumeCommaArg vas cur toks = .ok (v2, rest2) → rest2.length ≤ toks.length := by
  intro toks
  induction toks with
  | nil =>
      intro cur v2 rest2 h
      simp only [consumeCommaArg, Except.ok.injEq, Prod.mk.injEq] at h
      simp [← h.2]
  | cons t rest ih =>
      intro cur v2 rest2 h
      obtain ⟨c, v⟩ := t
      simp only [consumeCommaArg] at h
      by_cases hl : (lookupVirtarg vas c).isSome = true
      · rw [if_pos hl] at h
        simp only [Except.ok.injEq, Prod.mk.injEq] at h
        simp [← h.2]
      · rw [if_neg hl] at h
        cases cur with
        | none => exact absurd h (by simp)
        | some s => exact Nat.le_succ_of_le (ih _ _ _ h)

theorem dictLoopF_fuel_irrelevant (vas : List VirtArgStatic) :
    ∀ (f g : Nat) (toks od : List (String × Option String)),
    toks.length ≤ f → toks.length ≤ g →
    dictLoopF vas f toks od = dictLoopF vas g toks od := by
  intro f
  induction f with
  | zero =>
      intro g toks od hf _
      have h0 : toks = [] := List.length_eq_zero.mp (Nat.le_zero.mp hf)
      subst h0
      simp [dictLoopF]
  | succ f ih =>
      intro g toks od hf hg
      cases toks with
      | nil => simp [dictLoopF]
      | cons t rest =>
          obtain ⟨c, v⟩ := t
          cases g with
          | zero => simp at hg
          | succ g =>
              cases hl : lookupVirtarg vas c with
              | none =>
                  simp only [dictLoopF, hl]
                  exact ih g rest _ (by simp at hf; omega) (by simp at hg; omega)
              | some va =>
                  cases hcc : va.can_comma with
                  | true =>
                      simp only [dictLoopF, hl, hcc, if_true]
                      cases hcon : consumeCommaArg vas v rest with
                      | error e => rfl
                      | ok p =>
                          obtain ⟨v2, rest2⟩ := p
                          have hle := consumeCommaArg_length_le vas rest v v2 rest2 hcon
                          exact ih g rest2 _ (by simp at hf; omega) (by simp at hg; omega)
                  | false =>
                      simp only [dictLoopF, hl, hcc, Bool.false_eq_true, if_false]
                      exact ih g rest _ (by simp at hf; omega) (by simp at hg; omega)

theorem consumeCommaArg_absorb (vas : List VirtArgStatic) :
    ∀ (pref rest : List (String × Option String)) (cur : String),
    (∀ t ∈ pref, lookupVirtarg vas t.1 = Option.none) →
    (rest = [] ∨ (lookupVirtarg vas (rest.headD ("", Option.none)).1).isSome = true) →
    consumeCommaArg vas (some cur) (pref ++ rest) =
      .ok (some (pref.foldl (fun acc t => acc ++ rejoinChunk t) cur), rest) := by
  intro pref
  induction pref with
  | nil =>
      intro rest cur _ h2
      rcases h2 with h2 | h2
      · subst h2; rfl
      · cases rest with
        | nil => rfl
        | cons t ts =>
            obtain ⟨c, v⟩ := t
            simp only [List.headD_cons] at h2
            simp only [List.nil_append, consumeCommaArg, h2, if_true, List.foldl_nil]
  | cons p pref ih =>
      intro rest cur h1 h2
      obtain ⟨c, v⟩ := p
      have hc : lookupVirtarg vas c = Option.none := h1 (c, v) (by simp)
      rw [List.cons_append, consumeCommaArg, hc]
      simp only [Option.isSome_none, Bool.false_eq_true, if_false, List.foldl_cons]
      exact ih rest (cur ++ rejoinChunk (c, v)) (fun t ht => h1 t (by simp [ht])) h2

/-! ## Claim C1: comma-continuation absorption -/

/-- C1 counterexample: on `"label=a,foo=,b"` against a registry whose
`label` descriptor has `can_comma` set, the absorbed token `foo` carries
an (empty) value, yet the code rejoins it as `,foo` — dropping the `=` —
so the dict holds `"a,foo,b"`, not the `"a,foo=,b"` the claim's
`,name=value` rule prescribes for a token that carries a value. -/
theorem C1_counterexample :
    parse_optstr_tuples "label=a,foo=,b" =
      .ok [("label", some "a"), ("foo", some ""), ("b", Option.none)] ∧
    parse_optstr_to_dict "label=a,foo=,b" labelVas [] =
      .ok [("label", some "a,foo,b")] ∧
    rejoinChunk ("foo", some "") = ",foo" ∧
    specRejoinChunk ("foo", some "") = ",foo=" ∧
    ("a,foo,b" : String) ≠ "a,foo=,b" :=
  ⟨rfl, rfl, rfl, rfl, by decide⟩

/-- C1 (amended: an absorbed token is rejoined as `,name=value` only when
it carries a non-empty value; absent and empty values both rejoin as
`,name`): when the dict-builder loop resolves a token to a descriptor
with the comma-continuation flag, it absorbs every immediately following
token matching no registered descriptor name, alias or pattern into the
current value, stops at the first following token that does match some
registered descriptor, and the absorbed tokens produce no separate
entries — the loop continues on the remaining tokens with only the
continuation entry inserted. -/
theorem C1_comma_continuation
    (vas : List VirtArgStatic) (name : String) (va : VirtArgStatic) (cur : String)
    (pref rest od : List (String × Option String)) (fuel : Nat)
    (hname : lookupVirtarg vas name = some va) (hcomma : va.can_comma = true)
    (habsorb : ∀ t ∈ pref, lookupVirtarg vas t.1 = Option.none)
    (hstop : rest = [] ∨ (lookupVirtarg vas (rest.headD ("", Option.none)).1).isSome = true)
    (hfuel : ((name, some cur) :: (pref ++ rest)).length ≤ fuel) :
    dictLoopF vas fuel ((name, some cur) :: (pref ++ rest)) od =
      dictLoopF vas rest.length rest
        (odInsert od name (some (pref.foldl (fun acc t => acc ++ rejoinChunk t) cur))) := by
  cases fuel with
  | zero => simp at hfuel
  | succ f =>
      simp only [dictLoopF, hname, hcomma, if_true,
        consumeCommaArg_absorb vas pref rest cur habsorb hstop]
      exact dictLoopF_fuel_irrelevant vas f rest.length rest _
        (by simp at hfuel; omega) Nat.le.refl

/-- C1 witness: the amended theorem applied to the registry `labelVas`
and the tokens of `"label=a,foo,z=v"`; the two trailing tokens are
absorbed into the `label` value and the dict gets the single entry
`"a,foo,z=v"`. -/
theorem C1_comma_continuation_witness :
    dictLoopF labelVas 3 [("label", some "a"), ("foo", Option.none), ("z", some "v")] [] =
      dictLoopF labelVas (List.length ([] : List (String × Option String))) []
        (odInsert [] "label"
          (some ([(("foo" : String), (Option.none : Option String)), ("z", some "v")].foldl
            (fun acc t => acc ++ rejoinChunk t) "a"))) ∧
    dictLoopF labelVas 3 [("label", some "a"), ("foo", Option.none), ("z", some "v")] [] =
      .ok [("label", some "a,foo,z=v")] :=
  ⟨C1_comma_continuation labelVas "label" labelArg "a"
      [("foo", Option.none), ("z", some "v")] [] [] 3 rfl rfl (by decide)
      (Or.inl rfl) (by decide), rfl⟩

/-! ## Claim C2: indexed sub-object resolution boundary -/

/-- C2: binding `cell3.id=5` through the `_make_find_inst_cb` callback in
construct mode against an empty repeating collection creates exactly 4
default entries (indices 0-3) and then assigns on the entry at index 3;
in match mode the same option against an empty collection yields no match
and creates no entries (the collection is returned unchanged). -/
theorem C2_indexed_boundary :
    parse_param cellArg "cell3.id" (.str "5") instEmpty =
      ⟨[], [[], [], [], [("id", .str "5")]]⟩ ∧
    growTo [] 4 = [[], [], [], []] ∧
    runFindInstCb "cell" "cell3.id" true [] = ([[], [], [], []], some 3) ∧
    lookup_param cellArg "cell3.id" (.str "5") instEmpty = .ok false ∧
    runFindInstCb "cell" "cell3.id" false [] = ([], Option.none) :=
  ⟨rfl, rfl, rfl, rfl, rfl⟩

/-! ## Claim C5: boolean normalization -/

/-- C5: for a boolean-normalized descriptor, conversion yields `true`
exactly when the lowercased value is one of {y, yes, 1, true, t, on},
`false` exactly when it is one of {n, no, 0, false, f, off}, and any
other (non-empty) supplied value fails with a conversion error; in
particular `relabel=maybe` fails (see the witness). -/
theorem C5_on_off (s : String) :
    (raw_on_off_convert s = some true ↔ pyLower s ∈ tvalues) ∧
    (raw_on_off_convert s = some false ↔ pyLower s ∈ fvalues) ∧
    (pyLower s ∉ tvalues → pyLower s ∉ fvalues → raw_on_off_convert s = Option.none) ∧
    (∀ va key, va.is_onoff = true → s ≠ "" → raw_on_off_convert s = Option.none →
      mkVirtCLIArgument va key (some s) = .error (.convError key)) := by
  have hdisj : pyLower s ∈ tvalues → pyLower s ∈ fvalues → False := by
    intro hT hF
    simp only [tvalues, List.mem_cons, List.not_mem_nil, or_false] at hT
    rcases hT with h | h | h | h | h | h <;>
      rw [h] at hF <;> exact absurd hF (by decide)
  have hmk : ∀ va key, va.is_onoff = true → s ≠ "" →
      raw_on_off_convert s = Option.none →
      mkVirtCLIArgument va key (some s) = .error (.convError key) := by
    intro va key honoff hs hnone
    simp only [mkVirtCLIArgument, if_neg hs, honoff, if_true, on_off_convert, hnone]
  by_cases hT : pyLower s ∈ tvalues
  · refine ⟨?_, ?_, ?_, hmk⟩
    · simp [raw_on_off_convert, hT]
    · constructor
      · intro h
        rw [raw_on_off_convert] at h
        simp only [hT, if_true] at h
        exact absurd h (by decide)
      · intro h; exact absurd (hdisj hT h) id
    · intro h; exact absurd hT h
  · by_cases hF : pyLower s ∈ fvalues
    · refine ⟨?_, ?_, ?_, hmk⟩
      · constructor
        · intro h
          rw [raw_on_off_convert] at h
          simp only [hT, if_false, hF, if_true] at h
          exact absurd h (by decide)
        · intro h; exact absurd (hdisj h hF) id
      · simp [raw_on_off_convert, hT, hF]
      · intro _ h; exact absurd hF h
    · refine ⟨?_, ?_, ?_, hmk⟩
      · simp [raw_on_off_convert, hT, hF]
      · simp [raw_on_off_convert, hT, hF]
      · intro _ _; simp [raw_on_off_convert, hT, hF]

/-- C5 witness: `relabel=maybe` on the boolean-normalized `relabel`
descriptor fails with a conversion error, and `on` converts to `true`. -/
theorem C5_on_off_witness :
    mkVirtCLIArgument relabelArg "relabel" (some "maybe") =
      .error (.convError "relabel") ∧
    raw_on_off_convert "on" = some true :=
  ⟨(C5_on_off "maybe").2.2.2 relabelArg "relabel" rfl (by decide) (by decide),
   (C5_on_off "on").1.mpr (by decide)⟩

/-! ## Claim C6: absent versus empty value -/

theorem shlexLoop_plain :
    ∀ (cs tok : List Char), (∀ c ∈ cs, lexPlain c = true) →
    shlexLoop .norm tok false cs = .ok (emitEnd (tok ++ cs) false) := by
  intro cs
  induction cs with
  | nil => intro tok _; simp [shlexLoop]
  | cons c cs ih =>
      intro tok h
      have hc := h c (by simp)
      rw [lexPlain] at hc
      simp only [Bool.not_eq_true', Bool.or_eq_false_iff, decide_eq_false_iff_not] at hc
      obtain ⟨⟨⟨h1, h2⟩, h3⟩, h4⟩ := hc
      rw [shlexLoop, if_neg h1, if_neg h2, if_neg h3, if_neg h4]
      rw [ih (tok ++ [c]) (fun d hd => h d (by simp [hd]))]
      rw [List.append_assoc]
      rfl

theorem splitEqList_no_eq :
    ∀ cs : List Char, (∀ c ∈ cs, c ≠ '=') → splitEqList cs = (cs, Option.none) := by
  intro cs
  induction cs with
  | nil => intro _; rfl
  | cons c cs ih =>
      intro h
      rw [splitEqList, if_neg (h c (by simp)), ih (fun d hd => h d (by simp [hd]))]

theorem splitEqList_append_eq :
    ∀ cs : List Char, (∀ c ∈ cs, c ≠ '=') → splitEqList (cs ++ ['=']) = (cs, some []) := by
  intro cs
  induction cs with
  | nil => intro _; rfl
  | cons c cs ih =>
      intro h
      rw [List.cons_append, splitEqList, if_neg (h c (by simp)),
        ih (fun d hd => h d (by simp [hd]))]

/-- C6: the tokenizer gives a token written without `=` an absent value
and `name=` an explicit empty-string value, which bind differently: an
absent value always fails with "had no value set", while an explicit
empty value binds successfully, the empty string being mapped to the
unset marker (`None`) before conversion and assignment — for every
descriptor, boolean-normalized or not. -/
theorem C6_absent_vs_empty :
    (∀ name : String, name.data ≠ [] →
      (∀ c ∈ name.data, lexPlain c = true ∧ c ≠ '=') →
      parse_optstr_tuples name = .ok [(name, Option.none)] ∧
      parse_optstr_tuples (name ++ "=") = .ok [(name, some "")]) ∧
    (∀ va key, mkVirtCLIArgument va key Option.none = .error (.noValueSet key)) ∧
    (∀ va key, mkVirtCLIArgument va key (some "") = .ok ⟨va, key, .none⟩) := by
  refine ⟨?_, fun va key => rfl, ?_⟩
  · intro name hne h
    have hmkne : (⟨name.data⟩ : String) ≠ "" := fun hh => hne (congrArg String.data hh)
    constructor
    · have hemit : emitEnd name.data false = [⟨name.data⟩] := by
        rw [emitEnd, if_neg (by simp [hne])]
      simp only [parse_optstr_tuples,
        shlexLoop_plain name.data [] (fun c hc => (h c hc).1), List.nil_append, hemit,
        List.filterMap_cons, List.filterMap_nil, tupleOfOpt, if_neg hmkne,
        splitEqList_no_eq name.data (fun c hc => (h c hc).2)]
      rfl
    · have hdata : (name ++ "=").data = name.data ++ ['='] := by
        rw [String.data_append]
      have hplain : ∀ c ∈ name.data ++ ['='], lexPlain c = true := by
        intro c hc
        rcases List.mem_append.mp hc with hc | hc
        · exact (h c hc).1
        · simp only [List.mem_singleton] at hc
          subst hc; decide
      have hne2 : name.data ++ ['='] ≠ [] := by simp
      have hemit : emitEnd (name.data ++ ['=']) false = [⟨name.data ++ ['=']⟩] := by
        rw [emitEnd, if_neg (by simp)]
      have hmkne2 : (⟨name.data ++ ['=']⟩ : String) ≠ "" := by
        intro hh
        have := congrArg String.data hh
        simp at this
      simp only [parse_optstr_tuples, hdata,
        shlexLoop_plain (name.data ++ ['=']) [] hplain, List.nil_append, hemit,
        List.filterMap_cons, List.filterMap_nil, tupleOfOpt, if_neg hmkne2,
        splitEqList_append_eq name.data (fun c hc => (h c hc).2)]
      rfl
  · intro va key
    cases honoff : va.is_onoff with
    | true => simp [mkVirtCLIArgument, honoff, on_off_convert]
    | false => simp [mkVirtCLIArgument, honoff]

/-- C6 witness: the theorem applied at the name `model`: `model` alone
tokenizes with an absent value, `model=` with an empty one; binding the
former on the `path` descriptor fails, binding the latter succeeds with
the unset marker. -/
theorem C6_absent_vs_empty_witness :
    (parse_optstr_tuples "model" = .ok [("model", Option.none)] ∧
      parse_optstr_tuples ("model" ++ "=") = .ok [("model", some "")]) ∧
    mkVirtCLIArgument pathArg "model" Option.none = .error (.noValueSet "model") ∧
    mkVirtCLIArgument pathArg "model" (some "") = .ok ⟨pathArg, "model", .none⟩ :=
  ⟨C6_absent_vs_empty.1 "model" (by decide) (by decide),
   C6_absent_vs_empty.2.1 pathArg "model",
   C6_absent_vs_empty.2.2 pathArg "model"⟩

/-! ## Claim C7: unknown-option reporting -/

/-- C7: in construct mode, after every registered descriptor has claimed
its matching entries (claimed and removed in registry iteration order by
`_optdict_to_param_list`), a bind with remaining unclaimed keys fails
with an unknown-option error naming all of them at once; with no
remaining keys it succeeds. -/
theorem C7_unknown_options (vas : List VirtArgStatic)
    (od : List (String × Option String)) (inst : Inst)
    (params : List VirtCLIArgument)
    (hp : instantiateParams (optdictToParamList vas od).1 = .ok params) :
    ((optdictToParamList vas od).2 = [] →
      parseAll vas od inst =
        .ok (params.foldl (fun i p => parse_param p.virtarg p.key p.val i) inst)) ∧
    ((optdictToParamList vas od).2 ≠ [] →
      parseAll vas od inst =
        .error (.unknownOption ((optdictToParamList vas od).2.map Prod.fst))) := by
  constructor
  · intro h
    simp only [parseAll, hp, h, checkLeftover, List.isEmpty_nil, if_true]
  · intro h
    cases hl : (optdictToParamList vas od).2 with
    | nil => exact absurd hl h
    | cons a l =>
        simp only [parseAll, hp, hl, checkLeftover, List.isEmpty_cons,
          Bool.false_eq_true, if_false]

/-- C7 witness: `foo=bar` against the demo registry (which has no `foo`
descriptor) fails naming exactly `foo`. -/
theorem C7_unknown_options_witness :
    parseAll demoVas [("foo", some "bar")] instEmpty =
      .error (.unknownOption
        ((optdictToParamList demoVas [("foo", some "bar")]).2.map Prod.fst)) ∧
    (optdictToParamList demoVas [("foo", some "bar")]).2.map Prod.fst = ["foo"] :=
  ⟨(C7_unknown_options demoVas [("foo", some "bar")] instEmpty [] rfl).2 (by decide),
   rfl⟩

/-! ## Claim C9: match-mode equality capability -/

/-- C9 counterexample: a descriptor lacking both an attribute path and a
lookup callback CAN be registered — passing `lookup_cb=None` explicitly
satisfies the constructor check — and match mode is reachable with it:
`lookup_param` then fails at lookup time with "Don't know how to match",
not at registration time. -/
theorem C9_counterexample :
    mkVirtArgStatic orphanSpec = .ok orphanArg ∧
    strFalsy orphanArg.propname = true ∧
    orphanArg.lookup_cb = Option.none ∧
    lookup_param orphanArg "boot" (.str "x") instEmpty =
      .error (.dontKnowMatch "boot") :=
  ⟨rfl, rfl, rfl, rfl⟩

/-- C9 (amended): registration rejects a descriptor lacking an attribute
path only when its lookup callback is left unspecified (the `-1`
sentinel); with the lookup callback explicitly set — possibly to none —
the descriptor registers, and match mode with a descriptor lacking both
propname and lookup callback fails at lookup time with a match error. -/
theorem C9_match_capability :
    (∀ spec : VirtArgSpec, strFalsy spec.propname = true →
      spec.lookup_cb = .unspecified → ∃ e, mkVirtArgStatic spec = .error e) ∧
    (∀ va key v inst, strFalsy va.propname = true → va.lookup_cb = Option.none →
      lookup_param va key v inst = .error (.dontKnowMatch key)) := by
  constructor
  · intro spec h1 h2
    by_cases hcb : spec.cb.isNone = true
    · exact ⟨.propnameOrCb, by simp [mkVirtArgStatic, h1, hcb]⟩
    · refine ⟨.lookupCbUnspecified, ?_⟩
      rw [mkVirtArgStatic, if_neg (by simp [hcb]),
        if_pos (by simp [h1, h2, LookupSpec.isUnspecified])]
  · intro va key v inst h1 h2
    rw [lookup_param, if_pos (by simp [h1, h2])]

/-- C9 witness: the amended theorem applied to a spec lacking a propname
with `lookup_cb` left unspecified (registration fails) and to the
registered `orphanArg` (match fails at lookup time). -/
theorem C9_match_capability_witness :
    (∃ e, mkVirtArgStatic
      { cliname := "boot", propname := Option.none, cb := some (.other 0) } = .error e) ∧
    lookup_param orphanArg "boot" (.str "x") instEmpty =
      .error (.dontKnowMatch "boot") :=
  ⟨C9_match_capability.1
      { cliname := "boot", propname := Option.none, cb := some (.other 0) } rfl rfl,
   C9_match_capability.2 orphanArg "boot" (.str "x") instEmpty rfl rfl⟩

/-! ## Claim C10: the implicit clearxml descriptor -/

theorem foldlM_addArg (specs : List VirtArgSpec) :
    ∀ acc : List VirtArgStatic, acc ≠ [] →
    specs.foldlM addArg acc =
      (specs.mapM mkVirtArgStatic).map fun tail => acc ++ tail := by
  induction specs with
  | nil =>
      intro acc _
      rw [List.foldlM_nil, List.mapM_nil]
      show (Except.ok acc : Except RegError _) = Except.ok (acc ++ [])
      rw [List.append_nil]
  | cons s ss ih =>
      intro acc hacc
      rw [List.foldlM_cons, List.mapM_cons]
      have haddArg : addArg acc s =
          (match mkVirtArgStatic s with
           | .ok va => .ok (acc ++ [va])
           | .error e => .error e) := by
        have hbase : (if acc.isEmpty then [clearxmlArg] else acc) = acc := by
          rw [if_neg]
          simp [hacc]
        rw [addArg, hbase]
      cases hm : mkVirtArgStatic s with
      | error e =>
          rw [haddArg, hm]
          rfl
      | ok va =>
          rw [haddArg, hm]
          show ss.foldlM addArg (acc ++ [va]) = _
          rw [ih (acc ++ [va]) (by simp)]
          cases hss : ss.mapM mkVirtArgStatic with
          | error e => rfl
          | ok tail =>
              show Except.ok (acc ++ [va] ++ tail) = Except.ok (acc ++ va :: tail)
              rw [List.append_assoc]
              rfl

/-- C10: for every option family whose registry is built by `add_arg`
calls, the first call prepends the `clearxml` descriptor —
boolean-normalized, attribute path absent, lookup callback explicitly
none, bound to the clear-configuration callback — so the registry is
`clearxml` followed by exactly the explicitly registered descriptors in
order; every family thus recognizes the `clearxml` sub-option, which
precedes all explicit descriptors in registry iteration order. -/
theorem C10_clearxml_first (specs : List VirtArgSpec) (reg : List VirtArgStatic)
    (hne : specs ≠ []) (hreg : registryFromSpecs specs = .ok reg) :
    ∃ tail, reg = clearxmlArg :: tail ∧
      specs.mapM mkVirtArgStatic = .ok tail ∧
      matchName clearxmlArg "clearxml" = true ∧
      clearxmlArg.is_onoff = true ∧ clearxmlArg.propname = Option.none ∧
      clearxmlArg.lookup_cb = Option.none ∧ clearxmlArg.cb = some CbId.clearxml := by
  cases specs with
  | nil => exact absurd rfl hne
  | cons s ss =>
      rw [registryFromSpecs, List.foldlM_cons] at hreg
      have haddArg : addArg [] s =
          (match mkVirtArgStatic s with
           | .ok va => .ok [clearxmlArg, va]
           | .error e => .error e) := by
        rw [addArg]
        rfl
      cases hm : mkVirtArgStatic s with
      | error e =>
          rw [haddArg, hm] at hreg
          exact Except.noConfusion hreg
      | ok va =>
          rw [haddArg, hm] at hreg
          have hreg2 : ss.foldlM addArg [clearxmlArg, va] = .ok reg := hreg
          rw [foldlM_addArg ss [clearxmlArg, va] (by simp)] at hreg2
          cases hss : ss.mapM mkVirtArgStatic with
          | error e =>
              rw [hss] at hreg2
              exact Except.noConfusion hreg2
          | ok tail =>
              rw [hss] at hreg2
              have hreg3 : Except.ok (clearxmlArg :: va :: tail) =
                  (Except.ok reg : Except RegError _) := hreg2
              injection hreg3 with hreg4
              refine ⟨va :: tail, hreg4.symm, ?_, rfl, rfl, rfl, rfl, rfl⟩
              rw [List.mapM_cons, hm, hss]
              rfl

/-- C10 witness: the theorem applied to a one-spec family: the registry
is `clearxml` followed by the registered `path` descriptor. -/
theorem C10_clearxml_first_witness :
    ∃ tail, ([clearxmlArg, pathArg] : List VirtArgStatic) = clearxmlArg :: tail ∧
      [pathSpec].mapM mkVirtArgStatic = .ok tail ∧
      matchName clearxmlArg "clearxml" = true ∧
      clearxmlArg.is_onoff = true ∧ clearxmlArg.propname = Option.none ∧
      clearxmlArg.lookup_cb = Option.none ∧ clearxmlArg.cb = some CbId.clearxml :=
  C10_clearxml_first [pathSpec] [clearxmlArg, pathArg] (by decide) rfl

/-! ## Claim C8: ambiguity handling -/

/-- C8 counterexample: two descriptors with the identical name `foo`
register without any error — `add_arg` performs no ambiguity detection —
and at parse time the name `foo` is matched by both; `_lookup_virtarg`
resolves it to the first-registered one. -/
theorem C8_counterexample :
    registryFromSpecs [fooSpecA, fooSpecB] = .ok [clearxmlArg, fooArgA, fooArgB] ∧
    fooArgA ≠ fooArgB ∧
    matchName fooArgA "foo" = true ∧ matchName fooArgB "foo" = true ∧
    lookupVirtarg [clearxmlArg, fooArgA, fooArgB] "foo" = some fooArgA :=
  ⟨rfl, by decide, rfl, rfl, rfl⟩

/-- C8 (amended): registration performs no ambiguity detection —
`add_arg` succeeds exactly when the descriptor's own constructor checks
pass, independently of name overlaps with already-registered descriptors
— and at parse time a name matching several descriptors is resolved
first-match-wins in registry order, both by the dict builder's
`_lookup_virtarg` and by `_optdict_to_param_list`. -/
theorem C8_first_match_wins :
    (∀ (virtargs : List VirtArgStatic) (spec : VirtArgSpec),
      (∃ reg, addArg virtargs spec = .ok reg) ↔ ∃ va, mkVirtArgStatic spec = .ok va) ∧
    (∀ (vas1 : List VirtArgStatic) (va : VirtArgStatic) (vas2 : List VirtArgStatic)
      (name : String), matchName va name = true →
      (∀ va2 ∈ vas1, matchName va2 name = false) →
      lookupVirtarg (vas1 ++ va :: vas2) name = some va) ∧
    (∀ (va1 va2 : VirtArgStatic) (k : String) (v : Option String),
      matchName va1 k = true → matchName va2 k = true →
      optdictToParamList [va1, va2] [(k, v)] = ([(va1, k, v)], [])) := by
  refine ⟨?_, ?_, ?_⟩
  · intro virtargs spec
    constructor
    · rintro ⟨reg, h⟩
      rw [addArg] at h
      cases hm : mkVirtArgStatic spec with
      | error e => rw [hm] at h; exact absurd h (by simp)
      | ok va => exact ⟨va, rfl⟩
    · rintro ⟨va, h⟩
      exact ⟨(if virtargs.isEmpty then [clearxmlArg] else virtargs) ++ [va],
        by rw [addArg, h]⟩
  · intro vas1
    induction vas1 with
    | nil =>
        intro va vas2 name hm _
        simp [lookupVirtarg, List.find?_cons, hm]
    | cons w vas1 ih =>
        intro va vas2 name hm h2
        have hw : matchName w name = false := h2 w (by simp)
        rw [List.cons_append, lookupVirtarg, List.find?_cons_of_neg _ (by simp [hw])]
        exact ih va vas2 name hm (fun va2 hva2 => h2 va2 (by simp [hva2]))
  · intro va1 va2 k v h1 h2
    simp [optdictToParamList, List.filter, h1, h2]

/-- C8 witness: the amended theorem applied to the colliding `foo`
descriptors: lookup picks the first-registered one, and the claim list
assigns the shared key to it alone. -/
theorem C8_first_match_wins_witness :
    lookupVirtarg ([clearxmlArg] ++ fooArgA :: [fooArgB]) "foo" = some fooArgA ∧
    optdictToParamList [fooArgA, fooArgB] [("foo", some "bar")] =
      ([(fooArgA, "foo", some "bar")], []) :=
  ⟨C8_first_match_wins.2.1 [clearxmlArg] fooArgA [fooArgB] "foo" rfl (by decide),
   C8_first_match_wins.2.2 fooArgA fooArgB "foo" (some "bar") rfl rfl⟩

/-! ## Claim C3: token count of the tokenizer -/

theorem shlexLoop_length_le :
    ∀ (cs : List Char) (st : LexState) (tok : List Char) (quoted : Bool) (ts : List String),
    shlexLoop st tok quoted cs = .ok ts → ts.length ≤ topCommaCount st cs + 1 := by
  intro cs
  induction cs with
  | nil =>
      intro st tok quoted ts h
      cases st with
      | norm =>
          simp only [shlexLoop, Except.ok.injEq] at h
          subst h
          have hb : (emitEnd tok quoted).length ≤ 1 := by
            rw [emitEnd]
            split <;> simp
          simpa [topCommaCount] using hb
      | squote => simp only [shlexLoop] at h; exact Except.noConfusion h
      | dquote => simp only [shlexLoop] at h; exact Except.noConfusion h
      | escNorm => simp only [shlexLoop] at h; exact Except.noConfusion h
      | escDquote => simp only [shlexLoop] at h; exact Except.noConfusion h
  | cons c cs ih =>
      intro st tok quoted ts h
      cases st with
      | norm =>
          simp only [shlexLoop] at h
          simp only [topCommaCount]
          by_cases h1 : c = ','
          · rw [if_pos h1] at h
            rw [if_pos h1]
            by_cases h2 : (tok.isEmpty && !quoted) = true
            · rw [if_pos h2] at h
              have := ih .norm [] false ts h
              omega
            · rw [if_neg h2] at h
              cases hrec : shlexLoop .norm [] false cs with
              | error e => rw [hrec] at h; exact Except.noConfusion h
              | ok ts2 =>
                  rw [hrec] at h
                  simp only [Except.ok.injEq] at h
                  subst h
                  have := ih .norm [] false ts2 hrec
                  simp only [List.length_cons]
                  omega
          · rw [if_neg h1] at h
            rw [if_neg h1]
            by_cases h2 : c = '\''
            · rw [if_pos h2] at h
              rw [if_pos h2]
              exact ih .squote tok quoted ts h
            · rw [if_neg h2] at h
              rw [if_neg h2]
              by_cases h3 : c = '"'
              · rw [if_pos h3] at h
                rw [if_pos h3]
                exact ih .dquote tok quoted ts h
              · rw [if_neg h3] at h
                rw [if_neg h3]
                by_cases h4 : c = '\\'
                · rw [if_pos h4] at h
                  rw [if_pos h4]
                  exact ih .escNorm tok quoted ts h
                · rw [if_neg h4] at h
                  rw [if_neg h4]
                  exact ih .norm (tok ++ [c]) quoted ts h
      | squote =>
          simp only [shlexLoop] at h
          simp only [topCommaCount]
          by_cases h1 : c = '\''
          · rw [if_pos h1] at h
            rw [if_pos h1]
            exact ih .norm tok true ts h
          · rw [if_neg h1] at h
            rw [if_neg h1]
            exact ih .squote (tok ++ [c]) true ts h
      | dquote =>
          simp only [shlexLoop] at h
          simp only [topCommaCount]
          by_cases h1 : c = '"'
          · rw [if_pos h1] at h
            rw [if_pos h1]
            exact ih .norm tok true ts h
          · rw [if_neg h1] at h
            rw [if_neg h1]
            by_cases h2 : c = '\\'
            · rw [if_pos h2] at h
              rw [if_pos h2]
              exact ih .escDquote tok true ts h
            · rw [if_neg h2] at h
              rw [if_neg h2]
              exact ih .dquote (tok ++ [c]) true ts h
      | escNorm =>
          simp only [shlexLoop] at h
          simp only [topCommaCount]
          exact ih .norm (tok ++ [c]) quoted ts h
      | escDquote =>
          simp only [shlexLoop] at h
          simp only [topCommaCount]
          by_cases h1 : c = '"'
          · rw [if_pos h1] at h
            exact ih .dquote (tok ++ [c]) true ts h
          · rw [if_neg h1] at h
            by_cases h2 : c = '\\'
            · rw [if_pos h2] at h
              exact ih .dquote (tok ++ [c]) true ts h
            · rw [if_neg h2] at h
              exact ih .dquote (tok ++ ['\\', c]) true ts h

theorem noAdjComma_tail (c : Char) (cs : List Char) (h : noAdjComma (c :: cs) = true) :
    noAdjComma cs = true := by
  cases cs with
  | nil => rfl
  | cons d ds =>
      have h2 : noAdjComma (c :: d :: ds) =
          ((!(decide (c = ',') && decide (d = ','))) && noAdjComma (d :: ds)) := rfl
      rw [h2, Bool.and_eq_true] at h
      exact h.2

theorem noAdjComma_head (d : Char) (ds : List Char)
    (h : noAdjComma (',' :: d :: ds) = true) : d ≠ ',' := by
  intro hd
  subst hd
  have h2 : noAdjComma (',' :: ',' :: ds) =
      ((!(decide ((',' : Char) = ',') && decide ((',' : Char) = ','))) &&
        noAdjComma (',' :: ds)) := rfl
  rw [h2] at h
  simp at h

theorem noTrailComma_tail (c : Char) (cs : List Char) (hne : cs ≠ [])
    (h : noTrailComma (c :: cs) = true) : noTrailComma cs = true := by
  cases cs with
  | nil => exact absurd rfl hne
  | cons d ds => exact h

theorem shlexLoop_good :
    ∀ (cs tok : List Char),
    (∀ c ∈ cs, lexPlain c = true ∨ c = ',') →
    noAdjComma cs = true →
    noTrailComma cs = true →
    (tok = [] → headNotCommaB cs = true) →
    ∃ ts, shlexLoop .norm tok false cs = .ok ts ∧
      ts.length = topCommaCount .norm cs + 1 ∧ ∀ t ∈ ts, t ≠ "" := by
  intro cs
  induction cs with
  | nil =>
      intro tok _ _ _ hhead
      have htok : tok ≠ [] := by
        intro h0
        have := hhead h0
        simp [headNotCommaB] at this
      refine ⟨[⟨tok⟩], ?_, by simp [topCommaCount], ?_⟩
      · simp only [shlexLoop, emitEnd]
        rw [if_neg (by simp [htok])]
      · intro t ht
        simp only [List.mem_singleton] at ht
        subst ht
        exact fun hh => htok (congrArg String.data hh)
  | cons c cs ih =>
      intro tok hall hadj htrail hhead
      by_cases hc : c = ','
      · subst hc
        have htok : tok ≠ [] := by
          intro h0
          have := hhead h0
          simp [headNotCommaB] at this
        have hcs : cs ≠ [] := by
          intro h0
          subst h0
          simp [noTrailComma] at htrail
        have hhead2 : headNotCommaB cs = true := by
          cases cs with
          | nil => exact absurd rfl hcs
          | cons d ds =>
              have hd : d ≠ ',' := noAdjComma_head d ds hadj
              simp [headNotCommaB, hd]
        obtain ⟨ts2, hts2, hlen2, hne2⟩ :=
          ih [] (fun d hd => hall d (by simp [hd])) (noAdjComma_tail _ _ hadj)
            (noTrailComma_tail _ _ hcs htrail) (fun _ => hhead2)
        refine ⟨⟨tok⟩ :: ts2, ?_, ?_, ?_⟩
        · simp only [shlexLoop]
          rw [if_pos trivial, if_neg (by simp [htok]), hts2]
        · have hcount : topCommaCount .norm (',' :: cs) =
              1 + topCommaCount .norm cs := by
            simp [topCommaCount]
          rw [hcount, List.length_cons, hlen2]
          omega
        · intro t ht
          rcases List.mem_cons.mp ht with ht | ht
          · subst ht
            exact fun hh => htok (congrArg String.data hh)
          · exact hne2 t ht
      · have hplain : lexPlain c = true := by
          rcases hall c (by simp) with h | h
          · exact h
          · exact absurd h hc
        rw [lexPlain] at hplain
        simp only [Bool.not_eq_true', Bool.or_eq_false_iff, decide_eq_false_iff_not] at hplain
        obtain ⟨⟨⟨h1, h2⟩, h3⟩, h4⟩ := hplain
        have htrail2 : noTrailComma cs = true := by
          cases cs with
          | nil => rfl
          | cons d ds => exact htrail
        obtain ⟨ts2, hts2, hlen2, hne2⟩ :=
          ih (tok ++ [c]) (fun d hd => hall d (by simp [hd])) (noAdjComma_tail _ _ hadj)
            htrail2 (fun h0 => absurd h0 (by simp))
        refine ⟨ts2, ?_, ?_, hne2⟩
        · simp only [shlexLoop]
          rw [if_neg h1, if_neg h2, if_neg h3, if_neg h4, hts2]
        · simp only [topCommaCount]
          rw [if_neg h1, if_neg h2, if_neg h3, if_neg h4, hlen2]

theorem filterMap_tupleOfOpt_length :
    ∀ opts : List String, (∀ t ∈ opts, t ≠ "") →
    (opts.filterMap tupleOfOpt).length = opts.length := by
  intro opts
  induction opts with
  | nil => intro _; rfl
  | cons o os ih =>
      intro h
      have ho : o ≠ "" := h o (by simp)
      cases hf : tupleOfOpt o with
      | none =>
          rw [tupleOfOpt, if_neg ho] at hf
          cases hsp : splitEqList o.data with
          | mk n v =>
              rw [hsp] at hf
              exact Option.noConfusion hf
      | some b =>
          rw [List.filterMap_cons, hf, List.length_cons, List.length_cons,
            ih fun t ht => h t (by simp [ht])]

/-- C3 counterexample: `"a,,b"` has two unquoted top-level commas but the
tokenizer produces only two tokens, not three — shlex emits nothing for
the empty segment between the commas. -/
theorem C3_counterexample :
    topCommaCount .norm "a,,b".data = 2 ∧
    parse_optstr_tuples "a,,b" = .ok [("a", Option.none), ("b", Option.none)] ∧
    ([(("a" : String), (Option.none : Option String)), ("b", Option.none)]).length ≠ 2 + 1 :=
  ⟨rfl, rfl, by decide⟩

/-- C3 (amended): for every option string, the tokenizer produces AT MOST
N+1 tokens, where N is the number of top-level commas not inside shell
quoting; it produces exactly N+1 when every top-level comma-separated
segment is nonempty and free of quoting and escapes (`goodSegments`) —
empty segments (adjacent, leading or trailing commas, or quoted empty
strings) produce no token. -/
theorem C3_token_count (s : String) :
    (∀ ts, parse_optstr_tuples s = .ok ts →
      ts.length ≤ topCommaCount .norm s.data + 1) ∧
    (goodSegments s.data = true →
      ∃ ts, parse_optstr_tuples s = .ok ts ∧
        ts.length = topCommaCount .norm s.data + 1) := by
  constructor
  · intro ts h
    rw [parse_optstr_tuples] at h
    cases hlex : shlexLoop .norm [] false s.data with
    | error e => rw [hlex] at h; exact Except.noConfusion h
    | ok opts =>
        rw [hlex] at h
        simp only [Except.ok.injEq] at h
        subst h
        exact Nat.le_trans (List.length_filterMap_le tupleOfOpt opts)
          (shlexLoop_length_le s.data .norm [] false opts hlex)
  · intro hgood
    rw [goodSegments] at hgood
    simp only [Bool.and_eq_true, List.all_eq_true] at hgood
    obtain ⟨⟨⟨hhead, htrail⟩, hadj⟩, hall⟩ := hgood
    have hall2 : ∀ c ∈ s.data, lexPlain c = true ∨ c = ',' := by
      intro c hc
      have := hall c hc
      rcases Bool.or_eq_true _ _ |>.mp this with h | h
      · exact Or.inl h
      · exact Or.inr (by simpa using h)
    obtain ⟨ts0, hts0, hlen0, hne0⟩ :=
      shlexLoop_good s.data [] hall2 hadj htrail fun _ => hhead
    refine ⟨ts0.filterMap tupleOfOpt, ?_, ?_⟩
    · rw [parse_optstr_tuples, hts0]
    · rw [filterMap_tupleOfOpt_length ts0 hne0, hlen0]

/-- C3 witness: the amended theorem applied to `"a=1,b=2"` (one top-level
comma, two tokens): its token list satisfies the bound, and the string's
segments are good, so the count is exactly N+1 = 2. -/
theorem C3_token_count_witness :
    ([(("a" : String), some "1"), ("b", some "2")]).length ≤
      topCommaCount .norm "a=1,b=2".data + 1 ∧
    (∃ ts, parse_optstr_tuples "a=1,b=2" = .ok ts ∧
      ts.length = topCommaCount .norm "a=1,b=2".data + 1) :=
  ⟨(C3_token_count "a=1,b=2").1 [("a", some "1"), ("b", some "2")] rfl,
   (C3_token_count "a=1,b=2").2 (by decide)⟩

/-! ## Claim C4: introspection ordering -/

theorem charListLe_total : ∀ a b : List Char, charListLe a b = true ∨ charListLe b a = true := by
  intro a
  induction a with
  | nil => intro b; exact Or.inl rfl
  | cons x xs ih =>
      intro b
      cases b with
      | nil => exact Or.inr rfl
      | cons y ys =>
          by_cases hxy : x = y
          · subst hxy
            rcases ih ys with h | h
            · exact Or.inl (by simp [charListLe, h])
            · exact Or.inr (by simp [charListLe, h])
          · rcases lt_or_gt_of_ne hxy with h | h
            · exact Or.inl (by simp [charListLe, hxy, h])
            · refine Or.inr ?_
              rw [charListLe, if_neg (fun h0 => hxy h0.symm)]
              simpa using h

theorem charListLe_trans :
    ∀ a b c : List Char, charListLe a b = true → charListLe b c = true →
    charListLe a c = true := by
  intro a
  induction a with
  | nil => intro b c _ _; rfl
  | cons x xs ih =>
      intro b c hab hbc
      cases b with
      | nil => exact absurd hab (by simp [charListLe])
      | cons y ys =>
          cases c with
          | nil => exact absurd hbc (by simp [charListLe])
          | cons z zs =>
              rw [charListLe] at hab hbc ⊢
              by_cases hxy : x = y
              · subst hxy
                rw [if_pos rfl] at hab
                by_cases hyz : x = z
                · subst hyz
                  rw [if_pos rfl] at hbc
                  rw [if_pos rfl]
                  exact ih ys zs hab hbc
                · rw [if_neg hyz] at hbc
                  rw [if_neg hyz]
                  exact hbc
              · rw [if_neg hxy] at hab
                have hxy2 : x < y := by simpa using hab
                by_cases hyz : y = z
                · subst hyz
                  rw [if_neg hxy]
                  simpa using hxy2
                · rw [if_neg hyz] at hbc
                  have hyz2 : y < z := by simpa using hbc
                  have hxz : x < z := lt_trans hxy2 hyz2
                  rw [if_neg (ne_of_lt hxz)]
                  simpa using hxz

theorem charListLe_false_of_gt (c d : Char) (as bs : List Char) (h : d < c) :
    charListLe (c :: as) (d :: bs) = false := by
  have hne : c ≠ d := fun h0 => absurd h (by rw [h0]; exact lt_irrefl d)
  rw [charListLe, if_neg hne]
  simpa using not_lt_of_gt h

theorem insOrdered_mem (le : VirtArgStatic → VirtArgStatic → Bool) (a x : VirtArgStatic) :
    ∀ l : List VirtArgStatic, x ∈ insOrdered le a l ↔ x = a ∨ x ∈ l := by
  intro l
  induction l with
  | nil => simp [insOrdered]
  | cons b l ih =>
      rw [insOrdered]
      by_cases h : le a b = true
      · rw [if_pos h]
        simp [List.mem_cons]
      · rw [if_neg h]
        simp only [List.mem_cons, ih]
        tauto

theorem insOrdered_pairwise (le : VirtArgStatic → VirtArgStatic → Bool)
    (htot : ∀ a b, le a b = true ∨ le b a = true)
    (htrans : ∀ a b c, le a b = true → le b c = true → le a c = true)
    (a : VirtArgStatic) :
    ∀ l : List VirtArgStatic, l.Pairwise (fun x y => le x y = true) →
    (insOrdered le a l).Pairwise (fun x y => le x y = true) := by
  intro l
  induction l with
  | nil => intro _; simp [insOrdered]
  | cons b l ih =>
      intro hp
      rw [List.pairwise_cons] at hp
      obtain ⟨hb, hpl⟩ := hp
      rw [insOrdered]
      by_cases h : le a b = true
      · rw [if_pos h, List.pairwise_cons]
        constructor
        · intro y hy
          rcases List.mem_cons.mp hy with hy | hy
          · subst hy; exact h
          · exact htrans a b y h (hb y hy)
        · rw [List.pairwise_cons]
          exact ⟨hb, hpl⟩
      · rw [if_neg h, List.pairwise_cons]
        constructor
        · intro y hy
          rcases (insOrdered_mem le a y l).mp hy with hy | hy
          · rw [hy]
            rcases htot a b with h2 | h2
            · exact absurd h2 h
            · exact h2
          · exact hb y hy
        · exact ih hpl

theorem insSort_mem (le : VirtArgStatic → VirtArgStatic → Bool) (x : VirtArgStatic) :
    ∀ l : List VirtArgStatic, x ∈ insSort le l ↔ x ∈ l := by
  intro l
  induction l with
  | nil => simp [insSort]
  | cons a l ih =>
      rw [insSort, insOrdered_mem le a x (insSort le l), ih, List.mem_cons]

theorem insSort_pairwise (le : VirtArgStatic → VirtArgStatic → Bool)
    (htot : ∀ a b, le a b = true ∨ le b a = true)
    (htrans : ∀ a b c, le a b = true → le b c = true → le a c = true) :
    ∀ l : List VirtArgStatic, (insSort le l).Pairwise (fun x y => le x y = true) := by
  intro l
  induction l with
  | nil => simp [insSort]
  | cons a l ih => exact insOrdered_pairwise le htot htrans a _ ih

theorem sortKey_of_clearxml (va : VirtArgStatic) (h : va.cliname = "clearxml") :
    (sortKey va).data = '0' :: va.cliname.data := by
  rw [sortKey, h]
  rfl

theorem sortKey_of_address (va : VirtArgStatic)
    (h : strStartsWith va.cliname "address." = true) :
    (sortKey va).data = '1' :: va.cliname.data := by
  rw [sortKey, if_pos h, String.data_append]
  rfl

theorem sortKey_of_other (va : VirtArgStatic) (h1 : va.cliname ≠ "clearxml")
    (h2 : strStartsWith va.cliname "address." = false) :
    (sortKey va).data = va.cliname.data := by
  rw [sortKey, if_neg (by simp [h2]), if_neg h1, String.data_append]
  rfl

/-- C4 counterexample: in the demo registry the introspection listing is
`clearxml`, then `address.type`, then `path` — the `address.`-prefixed
option is NOT last: its `"1"` sort-key prefix sorts before every
letter-initial option name, so address options come right after
`clearxml`, ahead of all other options. -/
theorem C4_counterexample :
    introspect demoVas = ["clearxml", "address.type", "path"] ∧
    specAddressLast ["clearxml", "address.type", "path"] = false :=
  ⟨rfl, by decide⟩

/-- C4 (amended: address options come right after clearxml, not last):
for every registry whose ordinary option names (neither `clearxml` nor
`address.`-prefixed) start with a character greater than `'1'` — as every
name in the source's tables does — the introspection listing is ordered
by category: `clearxml` first, then every `address.`-prefixed option,
then all other option names. -/
theorem C4_introspection_order (vas : List VirtArgStatic)
    (hgood : ∀ va ∈ vas, introCat va.cliname = 2 → goodHead va.cliname = true) :
    (introspect vas).Pairwise fun a b => introCat a ≤ introCat b := by
  rw [introspect, List.pairwise_map]
  have hpw : (insSort leKey vas).Pairwise fun a b => leKey a b = true :=
    insSort_pairwise leKey (fun a b => charListLe_total _ _)
      (fun a b c => charListLe_trans _ _ _) vas
  refine hpw.imp_of_mem ?_
  intro a b ha hb hle
  have ha2 : a ∈ vas := (insSort_mem leKey a vas).mp ha
  have hb2 : b ∈ vas := (insSort_mem leKey b vas).mp hb
  have classify : ∀ v : VirtArgStatic, v ∈ vas →
      ((sortKey v).data = '0' :: v.cliname.data ∧ introCat v.cliname = 0) ∨
      ((sortKey v).data = '1' :: v.cliname.data ∧ introCat v.cliname = 1) ∨
      (∃ c cs, (sortKey v).data = c :: cs ∧ introCat v.cliname = 2 ∧ '1' < c) := by
    intro v hv
    by_cases h1 : v.cliname = "clearxml"
    · exact Or.inl ⟨sortKey_of_clearxml v h1, by rw [introCat, if_pos h1]⟩
    · by_cases h2 : strStartsWith v.cliname "address." = true
      · exact Or.inr (Or.inl ⟨sortKey_of_address v h2,
          by rw [introCat, if_neg h1, if_pos h2]⟩)
      · have hcat : introCat v.cliname = 2 := by
          rw [introCat, if_neg h1, if_neg (by simp [h2])]
        have hgh := hgood v hv hcat
        cases hd : v.cliname.data with
        | nil =>
            rw [goodHead, hd] at hgh
            exact absurd hgh (by simp)
        | cons c cs =>
            rw [goodHead, hd] at hgh
            refine Or.inr (Or.inr ⟨c, cs, ?_, hcat, by simpa using hgh⟩)
            rw [sortKey_of_other v h1 (by simpa using h2), hd]
  by_contra hlt
  push_neg at hlt
  have hfalse : leKey a b = false := by
    rw [leKey]
    rcases classify a ha2 with ⟨hka, hca⟩ | ⟨hka, hca⟩ | ⟨ca, cas, hka, hca, hgt⟩ <;>
      rcases classify b hb2 with ⟨hkb, hcb⟩ | ⟨hkb, hcb⟩ | ⟨cb, cbs, hkb, hcb, hgtb⟩
    · rw [hca, hcb] at hlt; omega
    · rw [hca, hcb] at hlt; omega
    · rw [hca, hcb] at hlt; omega
    · rw [hka, hkb]
      exact charListLe_false_of_gt _ _ _ _ (by decide)
    · rw [hca, hcb] at hlt; omega
    · rw [hca, hcb] at hlt; omega
    · rw [hka, hkb]
      exact charListLe_false_of_gt _ _ _ _ (lt_trans (by decide) hgt)
    · rw [hka, hkb]
      exact charListLe_false_of_gt _ _ _ _ hgt
    · rw [hca, hcb] at hlt; omega
  rw [hle] at hfalse
  exact Bool.noConfusion hfalse

/-- C4 witness: the amended theorem applied to the demo registry, whose
ordinary names start with letters: the listing is category-ordered
(clearxml, then address options, then the rest). -/
theorem C4_introspection_order_witness :
    (introspect demoVas).Pairwise fun a b => introCat a ≤ introCat b :=
  C4_introspection_order demoVas (by decide)

end VirtCli
